import Mathlib

/-!
Verification of the 3dssmb SMB shell (src/3dssmb.py) against its
natural-language specification.

The development shallow-embeds the pure logic of the script:
* `format_size` (size rendering with binary prefixes) — Python floats are
  modelled exactly by dyadic rationals: converting a natural number to an
  IEEE double is `toDouble` (round to 53 significant bits, ties to even),
  every later division by `1024.0` is exact in binary floating point, and
  `"%3.1f"` formatting rounds the exact dyadic value to one decimal place
  with ties to even (a tie at a half-ulp of the decimal never occurs for a
  non-dyadic bound, so this is exactly C `printf` behaviour).
* `print_filelist` (sorting and table rendering), with Python's stable
  `list.sort` modelled by `List.mergeSort` on the same key.
* `ntpath.join` / `ntpath.normpath` (CPython 3.8 `ntpath.py`), character-exact
  on `List Char`, used by `_path_for`.
* the shell state machine: `_connect`, `_change_dir`, `do_get`, and
  `complete_config`, with the pysmb/NetBIOS collaborators as oracles.
-/

namespace Smb

/-! ## `format_size` (src/3dssmb.py lines 48–55) -/

/-- Round a natural number to 53 significant bits, ties to even: the
rounding step of CPython's `int`→`float` conversion performed at
`num /= 1024.0`.  The conversion itself raises `OverflowError` exactly when
this rounded value reaches `2 ^ 1024` (beyond the double range);
`format_size` models that error branch explicitly. -/
def toDouble (n : Nat) : Nat :=
  if n < 2 ^ 53 then n
  else
    let s := n.log2 + 1 - 53
    let q := n / 2 ^ s
    let r := n % 2 ^ s
    let half := 2 ^ (s - 1)
    let m := if half < r then q + 1
             else if r < half then q
             else if q % 2 = 0 then q else q + 1
    m * 2 ^ s

/-- Round a rational to the nearest integer, ties to even. -/
def rndHalfEven (x : ℚ) : ℤ :=
  let f := ⌊x⌋
  let d := x - f
  if d < 1/2 then f
  else if (1:ℚ)/2 < d then f + 1
  else if f % 2 = 0 then f else f + 1

/-- `"%3.1f%s%s" % (num, unit, suffix)`: one decimal place, correctly rounded
(ties to even, as C `printf` renders the exact binary value); the width-3
minimum never pads since `d.d` is already three characters. -/
def fmtPct31 (q : ℚ) (unit suffix : String) : String :=
  let r := rndHalfEven (10 * q)
  (if r < 0 then "-" else "")
    ++ toString (r.natAbs / 10) ++ "." ++ toString (r.natAbs % 10)
    ++ unit ++ suffix

/-- The `for unit in [...]` loop of `format_size`: falls off the end (returns
`None`) when no unit brings the magnitude below 1024. -/
def fsLoop (q : ℚ) (suffix : String) : List String → Option String
  | [] => none
  | u :: rest => if |q| < 1024 then some (fmtPct31 q u suffix)
                 else fsLoop (q / 1024) suffix rest

/-- `format_size(num, suffix="B")` for a non-negative integer size, exactly as
Python executes it: the first comparison `abs(num) < 1024.0` compares the
exact integer; the first division `num /= 1024.0` converts `num` to a
double, raising `OverflowError` (`.error`) when the rounded value
(`toDouble`) is out of the double range; all subsequent divisions by
`1024.0` are exact.  `.ok none` is the function falling off the unit list
and returning `None`. -/
def format_size (n : Nat) (suffix : String := "B") : Except String (Option String) :=
  if n < 1024 then .ok (some (fmtPct31 (n : ℚ) "" suffix))
  else if 2 ^ 1024 ≤ toDouble n then .error "OverflowError"
  else .ok (fsLoop ((toDouble n : ℚ) / 1024) suffix
    ["Ki", "Mi", "Gi", "Ti", "Pi", "Ei", "Zi"])

/-! Spec-side renderings of §4.5's sentence, for refinement comparison.
`specFormatSmallest` follows the amended reading (the smallest/first unit
whose magnitude is below 1024); `specFormatLargest` follows the literal
words "the largest unit for which the magnitude is below 1024". Both are
written from the spec's words, not from the code. -/

/-- The unit names in ascending order, as in the spec. -/
def unitNames : List String := ["", "Ki", "Mi", "Gi", "Ti", "Pi", "Ei", "Zi"]

/-- Modelled from the spec: render `q` at unit index `k` with one decimal. -/
def specRenderAt (q : ℚ) (suffix : String) (k : Nat) : String :=
  fmtPct31 (q / 1024 ^ k) (unitNames.getD k "") suffix

/-- Modelled from the spec (amended reading): choose the smallest unit index
whose magnitude is below 1024. -/
def specFormatSmallest (q : ℚ) (suffix : String) : Option String :=
  ((List.range 8).find? fun k => |q| / 1024 ^ k < 1024).map (specRenderAt q suffix)

/-- Modelled from the spec (literal reading): choose the largest unit index
whose magnitude is below 1024. -/
def specFormatLargest (q : ℚ) (suffix : String) : Option String :=
  ((List.range 8).reverse.find? fun k => |q| / 1024 ^ k < 1024).map
    (specRenderAt q suffix)

/-! ## `print_filelist` (src/3dssmb.py lines 57–65)

`str.lower()` (full Unicode case mapping) is a runtime collaborator like the
protocol libraries, so the formatter is embedded parametrically in it: `low`
below stands for Python's `str.lower`.  Theorems about the formatter hold
for every `low`, hence in particular for the real one; concrete examples
assume of `low` only its values on the example's ASCII names, which the
reader checks against `str.lower` directly. -/

/-- A listing entry as built by `do_ls`/`do_lls`: filename, `isdir`, rendered
size string. -/
abbrev FileEntry := String × Bool × String

/-- Python's `False < True`. -/
def boolLt (x y : Bool) : Bool := !x && y

/-- The sort key comparison `(not f[1], f[0].lower()) <= ...` of tuples, i.e.
lexicographic on (not isdir, lowercased name), with `low` standing for
`str.lower`. -/
def keyLe (low : String → String) (a b : FileEntry) : Bool :=
  boolLt (!a.2.1) (!b.2.1) || ((!a.2.1) == (!b.2.1) && decide (low a.1 ≤ low b.1))

/-- `filelist.sort(key=lambda f: (not f[1], f[0].lower()))`: Python's stable
sort by the key, modelled by the stable `List.mergeSort`. -/
def sortFilelist (low : String → String) (l : List FileEntry) : List FileEntry :=
  l.mergeSort (keyLe low)

/-- The width computation `max(len(f[2]) for f in filelist)`: `none` on an
empty list, where Python's `max` raises `ValueError`. -/
def maxSizeLen : List FileEntry → Option Nat
  | [] => none
  | f :: fs => some (fs.foldl (fun w g => max w g.2.2.length) f.2.2.length)

/-- `"{:>{w}} {}".format(size, filename, w=...)`: right-align `size` in width
`w` (no truncation), then a space and the name. -/
def formatRow (w : Nat) (f : FileEntry) : String :=
  ⟨List.replicate (w - f.2.2.length) ' '⟩ ++ f.2.2 ++ " " ++ f.1

/-- `print_filelist`: sort, compute the width over the whole batch, then
print every entry except the `.`/`..` pseudo-entries. `none` models the
`ValueError` raised by `max` on an empty batch. -/
def print_filelist (low : String → String) (l : List FileEntry) : Option (List String) :=
  let sorted := sortFilelist low l
  match maxSizeLen sorted with
  | none => none
  | some w => some ((sorted.filter fun f => !(f.1 == "." || f.1 == "..")).map (formatRow w))

/-! ## `ntpath` (CPython `ntpath.py`, pre-3.11 algorithm), on `List Char`

`_path_for` is `ntpath.normpath(ntpath.join(self.cur_dir, path))`.  The
embedding is character-exact: `sep = '\\'`, `altsep = '/'`, `colon = ':'`.
-/

/-- `c in seps` for `seps = '\\/'`. -/
def isSepC (c : Char) : Bool := c = '\\' || c = '/'

/-- `p.replace(altsep, sep)` on a single character. -/
def replSep (c : Char) : Char := if c = '/' then '\\' else c

/-- `p.replace(altsep, sep)`. -/
def normSeps (p : List Char) : List Char := p.map replSep

/-- Index of the first occurrence of `ch`, if any. -/
def findIdxCh (ch : Char) : List Char → Option Nat
  | [] => none
  | c :: rest => if c = ch then some 0 else (findIdxCh ch rest).map (· + 1)

/-- `p.find(ch, k)` (as `Option` instead of `-1`). -/
def findFrom (p : List Char) (ch : Char) (k : Nat) : Option Nat :=
  (findIdxCh ch (p.drop k)).map (· + k)

/-- The split position computed by `ntpath.splitdrive`: `0` for no drive,
`2` for a `X:` drive, and the end of the `\\host\share` part for UNC paths. -/
def driveIdx (p : List Char) : Nat :=
  if 2 ≤ p.length then
    let normp := normSeps p
    if normp.take 2 = ['\\', '\\'] ∧ normp.get? 2 ≠ some '\\' then
      match findFrom normp '\\' 2 with
      | none => 0
      | some index =>
        match findFrom normp '\\' (index + 1) with
        | none => p.length
        | some index2 => if index2 = index + 1 then 0 else index2
    else if normp.get? 1 = some ':' then 2 else 0
  else 0

/-- `ntpath.splitdrive(p)`. -/
def splitdrive (p : List Char) : List Char × List Char :=
  (p.take (driveIdx p), p.drop (driveIdx p))

/-- The ASCII action of `str.lower` on one character.  Used only by `join`'s
drive comparison below, where the compared strings are drive specifications
(`X:` with an ASCII letter, or UNC `\\host\share` prefixes); it is not a
model of `str.lower` on arbitrary text. -/
def asciiLower (c : Char) : Char :=
  if 'A' ≤ c ∧ c ≤ 'Z' then Char.ofNat (c.toNat + 32) else c

/-- `p_drive.lower()`, used by `join` to compare drives case-insensitively. -/
def lowerL (l : List Char) : List Char := l.map asciiLower

/-- The return statement of `ntpath.join`: insert a separator between a UNC
drive and a relative tail. -/
def joinFinish (rd rp : List Char) : List Char :=
  if rp ≠ [] ∧ ¬(rp.head?.any isSepC) ∧ rd ≠ [] ∧ rd.getLast? ≠ some ':' then
    rd ++ '\\' :: rp
  else rd ++ rp

/-- The relative branch of `ntpath.join`'s loop body: append a separator to a
non-separator-terminated result path, then the fragment. -/
def joinRel (rd rp pp : List Char) : List Char :=
  let rp' := if rp ≠ [] ∧ ¬(rp.getLast?.any isSepC) then rp ++ ['\\'] else rp
  joinFinish rd (rp' ++ pp)

/-- `ntpath.join(path, p)` (one extra component, the only form the script
uses). -/
def ntjoin (path p : List Char) : List Char :=
  let rd := (splitdrive path).1
  let rp := (splitdrive path).2
  let pd := (splitdrive p).1
  let pp := (splitdrive p).2
  if pp.head?.any isSepC then
    joinFinish (if pd ≠ [] ∨ rd = [] then pd else rd) pp
  else if pd ≠ [] ∧ pd ≠ rd then
    if lowerL pd ≠ lowerL rd then joinFinish pd pp
    else joinRel pd rp pp
  else joinRel rd rp pp

/-- `path.split(sep)` (Python `str.split` with an explicit separator: keeps
empty components, `[""]` on the empty string). -/
def splitSep : List Char → List (List Char)
  | [] => [[]]
  | c :: rest =>
    match splitSep rest with
    | [] => [[c]]
    | s :: ss => if c = '\\' then [] :: s :: ss else (c :: s) :: ss

/-- `sep.join(comps)`. -/
def joinSep : List (List Char) → List Char
  | [] => []
  | [s] => s
  | s :: ss => s ++ '\\' :: joinSep ss

/-- The component loop of `ntpath.normpath`, presented with the already
processed prefix `acc = comps[:i]` and the remaining suffix `comps[i:]`:
drop empty and `.` components; on `..` pop the previous non-`..` component,
drop it at the front of a rooted path, and keep it otherwise. -/
def npLoop (rooted : Bool) : List (List Char) → List (List Char) → List (List Char)
  | acc, [] => acc
  | acc, c :: rest =>
    if c = [] ∨ c = ['.'] then npLoop rooted acc rest
    else if c = ['.', '.'] then
      if acc ≠ [] ∧ acc.getLast? ≠ some ['.', '.'] then npLoop rooted acc.dropLast rest
      else if acc = [] ∧ rooted then npLoop rooted acc rest
      else npLoop rooted (acc ++ [c]) rest
    else npLoop rooted (acc ++ [c]) rest

/-- `path.startswith(('\\\\.\\', '\\\\?\\'))`. -/
def isSpecialPrefix (p : List Char) : Bool :=
  p.take 4 = ['\\', '\\', '.', '\\'] || p.take 4 = ['\\', '\\', '?', '\\']

/-- `ntpath.normpath(p)`. -/
def normpath (p : List Char) : List Char :=
  if isSpecialPrefix p then p
  else
    let q := normSeps p
    let d := (splitdrive q).1
    let r := (splitdrive q).2
    let pre := if r.head? = some '\\' then d ++ ['\\'] else d
    let body := if r.head? = some '\\' then r.dropWhile (· = '\\') else r
    let comps := npLoop (pre.getLast? = some '\\') [] (splitSep body)
    if pre = [] ∧ comps = [] then ['.']
    else pre ++ joinSep comps

/-- `ClientCmd._path_for` (src/3dssmb.py lines 402–403). -/
def path_for (cur_dir path : String) : String :=
  ⟨normpath (ntjoin cur_dir.data path.data)⟩

/-! ## The shell state machine around `cur_dir` -/

/-- A character that may appear in a segment of a normalized absolute remote
path: not a separator (either flavour) and not the drive colon. -/
def isSegChar (c : Char) : Bool := c ≠ '\\' && c ≠ '/' && c ≠ ':'

/-- A normal path segment: nonempty, not a `.`/`..` pseudo-segment, no
separators or colons. -/
def isSeg (s : List Char) : Bool :=
  s ≠ [] && s ≠ ['.'] && s ≠ ['.', '.'] && s.all isSegChar

/-- A normalized absolute backslash-separated remote path: the share root
`\` or `\seg₁\…\segₙ` with normal segments. -/
def isNormAbsPath (s : String) : Bool :=
  match s.data with
  | '\\' :: rest => rest = [] || (splitSep rest).all isSeg
  | _ => false

/-- `ClientCmd._change_dir` (src/3dssmb.py lines 408–413): run the validating
`listPath`; commit the cursor on success, keep it and report the failure
status name on an `OperationFailure`. -/
def change_dir (listPath : String → Except String Unit) (cur path : String) :
    String × Option String :=
  match listPath path with
  | .ok _ => (path, none)
  | .error status => (cur, some ("Failed to change directory: " ++ status))

/-- The shell operations as far as `cur_dir` is concerned: a successful
(re)`_connect`, a `cd` with zero or one argument, and every other command
(none of which assigns `self.cur_dir`). -/
inductive SmbOp
  | connect
  | cd (arg : Option String)
  | other
deriving DecidableEq

/-- One step of the shell on the cursor, with the validating `listPath` call
abstracted as a path oracle (`true` = listing succeeds). `do_cd` with no
argument targets `\`; with one argument it targets `_path_for` of it. -/
def stepCursor (listPathOk : String → Bool) (cur : String) : SmbOp → String
  | .connect => "\\"
  | .cd none => (change_dir (fun p => if listPathOk p then .ok () else .error "e") cur "\\").1
  | .cd (some a) =>
    (change_dir (fun p => if listPathOk p then .ok () else .error "e") cur
      (path_for cur a)).1
  | .other => cur

/-- Run a sequence of operations from a cursor. -/
def runCursor (listPathOk : String → Bool) : List SmbOp → String → String
  | [], cur => cur
  | op :: ops, cur => runCursor listPathOk ops (stepCursor listPathOk cur op)

/-- A plain path fragment: no colon anywhere and not beginning with two
separators (so it carries no `X:` drive and no `\\host\share`/`\\?\` prefix). -/
def plainFragment (a : String) : Bool :=
  a.data.all (fun c => c ≠ ':') &&
    !(match a.data with
      | c1 :: c2 :: _ => isSepC c1 && isSepC c2
      | _ => false)

/-- The `cd` arguments used by a sequence of operations. -/
def cdArgs : List SmbOp → List String
  | [] => []
  | .cd (some a) :: ops => a :: cdArgs ops
  | _ :: ops => cdArgs ops

/-! ## `complete_config` and `_connect` (src/3dssmb.py lines 23–46, 379–400) -/

/-- The observable actions of `_connect`/`complete_config`: closing the old
session, the NetBIOS name query, printing the name-resolution error (and
prompting for an IP), and opening the transport connection. -/
inductive Action
  | close
  | nbQuery (name : String)
  | resolutionError
  | transport (ip : String) (port : Nat)
deriving DecidableEq

/-- The interactive and network environment: what `input()`/`getpass()`
return and what `NetBIOS.queryName` yields. -/
structure Env where
  nameIn : String
  userIn : String
  passIn : String
  ipIn : String
  queryIps : List String

/-- The `config` dictionary. -/
structure Config where
  servername : Option String
  username : Option String
  password : Option String
  serverip : Option String
  serverport : Option Nat
  service : Option String

/-- `complete_config`: fill every unset field, resolving the server name via
NetBIOS when no IP is given; on zero or more than one result print the
resolution error and read the IP from the user. Returns the completed config
and the actions performed. -/
def complete_config (env : Env) (c : Config) : Config × List Action :=
  let sn := c.servername.getD env.nameIn
  let un := c.username.getD env.userIn
  let pw := c.password.getD env.passIn
  let ipActs :=
    match c.serverip with
    | some v => (v, [])
    | none =>
      if env.queryIps = [] ∨ 1 < env.queryIps.length then
        (env.ipIn, [Action.nbQuery sn, Action.resolutionError])
      else (env.queryIps.headD "", [Action.nbQuery sn])
  let port := c.serverport.getD 139
  let svc := c.service.getD "microSD"
  ({ servername := some sn, username := some un, password := some pw,
     serverip := some ipActs.1, serverport := some port, service := some svc },
   ipActs.2)

/-- The action trace of `ClientCmd._connect`: close the previous session if
one exists, complete the configuration, then connect the transport to the
configured address and port. -/
def connect_actions (prevConn : Option Nat) (env : Env) (c : Config) : List Action :=
  let cc := complete_config env c
  (if prevConn.isSome then [Action.close] else []) ++ cc.2 ++
    [Action.transport (cc.1.serverip.getD "") (cc.1.serverport.getD 0)]

/-- The shell connection state after a successful `_connect`: the single new
session handle, the share name, and the cursor reset to the share root. -/
structure ConnState where
  conn : Option Nat
  service : String
  cur_dir : String

/-- The state produced by a successful `_connect` (src/3dssmb.py 385–398). -/
def connect_state (env : Env) (c : Config) (newSession : Nat) : ConnState :=
  { conn := some newSession,
    service := ((complete_config env c).1.service).getD "",
    cur_dir := "\\" }

/-! ## `do_get` (src/3dssmb.py lines 176–197) -/

/-- The outcome of the library call `conn.retrieveFile`: the bytes it wrote
to the sink before returning or raising, and whether it succeeded. -/
structure Transfer where
  delivered : List Nat
  ok : Bool

/-- Observable filesystem events of `do_get`. -/
inductive GetEvent
  | openTrunc (dest : String)
  | retrieve (src : String)
deriving DecidableEq

/-- The transfer part of `do_get`: `open(dest, "wb")` creates/truncates the
sink, `retrieveFile` streams into it, the `with` block closes it; nothing
deletes the sink or retries on failure. The local filesystem is a partial
map from path to contents. -/
def do_get (fs : String → Option (List Nat)) (src dest : String) (tr : Transfer) :
    (String → Option (List Nat)) × Bool × List GetEvent :=
  let fsTrunc := fun n => if n = dest then some [] else fs n
  let fsDone := fun n => if n = dest then some tr.delivered else fsTrunc n
  (fsDone, tr.ok, [GetEvent.openTrunc dest, GetEvent.retrieve src])

/-! ## C2: `_change_dir` is atomic on the cursor -/

/-- C2: `changeDirectory` is atomic with respect to the cursor: when the
validating list call succeeds on the candidate path the cursor is set to it,
and when the list call rejects the candidate the cursor is unchanged and the
failure is reported (returned for display), not fatal. -/
theorem change_dir_atomic (listPath : String → Except String Unit)
    (cur path : String) :
    (listPath path = .ok () → change_dir listPath cur path = (path, none)) ∧
    (∀ e, listPath path = .error e →
      (change_dir listPath cur path).1 = cur ∧
      (change_dir listPath cur path).2 =
        some ("Failed to change directory: " ++ e)) := by
  constructor
  · intro h
    simp [change_dir, h]
  · intro e h
    simp [change_dir, h]

/-- Witness for C2 at a concrete oracle: the cursor commits on an accepted
path and stays on a rejected one. -/
theorem change_dir_atomic_witness :
    change_dir (fun p => if p = "\\ok" then .ok () else .error "no")
        "\\" "\\ok" = ("\\ok", none) ∧
    (change_dir (fun p => if p = "\\ok" then .ok () else .error "no")
        "\\" "\\bad").1 = "\\" :=
  ⟨(change_dir_atomic _ "\\" "\\ok").1 (by simp),
   ((change_dir_atomic _ "\\" "\\bad").2 "no" (by simp)).1⟩

/-! ## C6: `_connect` closes the previous session exactly once -/

/-- `complete_config` never closes a session. -/
theorem close_not_mem_complete_config (env : Env) (c : Config) :
    Action.close ∉ (complete_config env c).2 := by
  rcases c with ⟨sn, un, pw, ip, pt, sv⟩
  rcases ip with _ | v
  · by_cases h : env.queryIps = [] ∨ 1 < env.queryIps.length <;>
      simp [complete_config, h]
  · simp [complete_config]

/-- C6: calling `_connect` with a live session closes it exactly once before
the transport connection is opened; with no live session nothing is closed;
and the resulting state holds exactly the single new session. -/
theorem connect_session_lifecycle (env : Env) (c : Config) (p s : Nat) :
    (∃ rest, connect_actions (some p) env c = Action.close :: rest ∧
       Action.close ∉ rest ∧
       Action.transport ((complete_config env c).1.serverip.getD "")
         ((complete_config env c).1.serverport.getD 0) ∈ rest) ∧
    Action.close ∉ connect_actions none env c ∧
    (connect_state env c s).conn = some s := by
  refine ⟨⟨(complete_config env c).2 ++
      [Action.transport ((complete_config env c).1.serverip.getD "")
        ((complete_config env c).1.serverport.getD 0)], ?_, ?_, ?_⟩, ?_, rfl⟩
  · simp [connect_actions]
  · simp [close_not_mem_complete_config env c]
  · simp
  · simp [connect_actions, close_not_mem_complete_config env c]

/-! ## C1: name-resolution failure in `complete_config`/`_connect` -/

/-- Counterexample to C1 as stated: with the server address unset and a
name resolution returning zero results, `_connect` does go on to attempt a
transport connection (to the interactively supplied address) instead of
failing without one. -/
theorem connect_transport_after_failed_resolution :
    Action.transport "1.2.3.4" 139 ∈
      connect_actions none ⟨"3ds", "u", "p", "1.2.3.4", []⟩
        ⟨none, none, none, none, none, none⟩ := by decide

/-- C1 (amended): when the server address is unset and name resolution
returns zero or more than one result, `complete_config` reports the
resolution error, takes the address from interactive input, and `_connect`
then attempts the transport connection to that address. -/
theorem connect_resolution_fallback (env : Env) (c : Config) (prev : Option Nat)
    (hip : c.serverip = none)
    (hres : env.queryIps = [] ∨ 1 < env.queryIps.length) :
    (complete_config env c).1.serverip = some env.ipIn ∧
    Action.resolutionError ∈ connect_actions prev env c ∧
    Action.transport env.ipIn ((complete_config env c).1.serverport.getD 0) ∈
      connect_actions prev env c := by
  rcases c with ⟨sn, un, pw, ip, pt, sv⟩
  cases hip
  refine ⟨?_, ?_, ?_⟩ <;> simp [complete_config, connect_actions, hres]

/-- Witness for C1 (amended) at a concrete environment with zero
resolution results. -/
theorem connect_resolution_fallback_witness :
    (complete_config ⟨"3ds", "u", "p", "1.2.3.4", []⟩
        ⟨none, none, none, none, none, none⟩).1.serverip = some "1.2.3.4" ∧
    Action.resolutionError ∈ connect_actions none ⟨"3ds", "u", "p", "1.2.3.4", []⟩
        ⟨none, none, none, none, none, none⟩ ∧
    Action.transport "1.2.3.4"
        ((complete_config ⟨"3ds", "u", "p", "1.2.3.4", []⟩
          ⟨none, none, none, none, none, none⟩).1.serverport.getD 0) ∈
      connect_actions none ⟨"3ds", "u", "p", "1.2.3.4", []⟩
        ⟨none, none, none, none, none, none⟩ :=
  connect_resolution_fallback ⟨"3ds", "u", "p", "1.2.3.4", []⟩
    ⟨none, none, none, none, none, none⟩ none rfl (Or.inl rfl)

/-! ## C8: a failed `do_get` leaves the truncated partial artifact -/

/-- C8: when the streaming transfer fails after delivering `tr.delivered`
(N bytes), the local sink holds exactly those N bytes — the sink was
created/truncated before the transfer began, and the failure neither deletes
the artifact nor retries the transfer (exactly one retrieve event, after the
truncating open). -/
theorem do_get_partial_artifact (fs : String → Option (List Nat))
    (src dest : String) (tr : Transfer) (hfail : tr.ok = false) :
    (do_get fs src dest tr).1 dest = some tr.delivered ∧
    (do_get fs src dest tr).2.1 = false ∧
    (do_get fs src dest tr).2.2 = [GetEvent.openTrunc dest, GetEvent.retrieve src] ∧
    ((do_get fs src dest tr).2.2.count (GetEvent.retrieve src) = 1) := by
  refine ⟨by simp [do_get], hfail, rfl, ?_⟩
  simp [do_get, List.count_cons, List.count_nil]

/-- Witness for C8: a transfer of `[7, 7]` that then fails leaves exactly
those two bytes at the destination. -/
theorem do_get_partial_artifact_witness :
    (do_get (fun _ => none) "\\src.bin" "dl.bin" ⟨[7, 7], false⟩).1 "dl.bin" =
      some [7, 7] :=
  (do_get_partial_artifact (fun _ => none) "\\src.bin" "dl.bin" ⟨[7, 7], false⟩ rfl).1

/-! ## C9: `print_filelist` rejects the empty batch -/

/-- C9: the listing formatter is not total on the empty batch: for every
lowercase collaborator, the width computation (`max` over all rendered
sizes) has no value there, so `print_filelist` fails (raises `ValueError`)
on `[]`, and renders for every non-empty batch. -/
theorem print_filelist_empty_fails (low : String → String) :
    print_filelist low [] = none ∧
    ∀ l : List FileEntry, l ≠ [] → (print_filelist low l).isSome := by
  constructor
  · simp [print_filelist, sortFilelist, maxSizeLen]
  · intro l hl
    have hs : sortFilelist low l ≠ [] := by
      intro h
      have hp := List.mergeSort_perm l (keyLe low)
      rw [sortFilelist] at h
      rw [h] at hp
      exact hl hp.symm.eq_nil
    rw [print_filelist]
    rcases hsort : sortFilelist low l with _ | ⟨f, fs⟩
    · exact absurd hsort hs
    · simp [maxSizeLen]

/-- Witness for C9: a singleton batch renders (at the identity in place of
the lowercase collaborator; the property does not consult it). -/
theorem print_filelist_empty_fails_witness :
    (print_filelist id [("a", true, "-")]).isSome :=
  (print_filelist_empty_fails id).2 [("a", true, "-")] (by decide)

/-! ## C4: the listing is sorted directories-first, case-insensitively -/

/-- The sort key comparison is transitive (for every lowercase function). -/
theorem keyLe_trans (low : String → String) : ∀ a b c : FileEntry,
    keyLe low a b = true → keyLe low b c = true → keyLe low a c = true := by
  intro a b c hab hbc
  simp only [keyLe, boolLt, Bool.or_eq_true, Bool.and_eq_true, beq_iff_eq,
    Bool.not_eq_true', decide_eq_true_eq] at *
  rcases a with ⟨na, da, sa⟩; rcases b with ⟨nb, db, sb⟩; rcases c with ⟨nc, dc, sc⟩
  cases da <;> cases db <;> cases dc <;> simp_all <;> exact le_trans hab hbc

/-- The sort key comparison is total (for every lowercase function). -/
theorem keyLe_total (low : String → String) :
    ∀ a b : FileEntry, (keyLe low a b || keyLe low b a) = true := by
  intro a b
  simp only [keyLe, boolLt, Bool.or_eq_true, Bool.and_eq_true, beq_iff_eq,
    Bool.not_eq_true', decide_eq_true_eq]
  rcases a with ⟨na, da, sa⟩; rcases b with ⟨nb, db, sb⟩
  cases da <;> cases db <;> simp_all <;> exact le_total _ _

/-- The claim's example batch sorts to directory `A` first, then the files
in case-insensitive name order — for every lowercase function that maps the
three (ASCII) names the way `str.lower` does. -/
theorem sortFilelist_example (low : String → String)
    (hb : low "b.txt" = "b.txt") (hA : low "A" = "a") (ha : low "a.txt" = "a.txt") :
    sortFilelist low [("b.txt", false, "500.0B"), ("A", true, "-"),
        ("a.txt", false, "2.0KiB")] =
      [("A", true, "-"), ("a.txt", false, "2.0KiB"), ("b.txt", false, "500.0B")] := by
  simp [sortFilelist, List.mergeSort, List.merge, keyLe, boolLt, hb, hA, ha]
  decide

/-- C4: for every lowercase collaborator `low` (in particular Python's
`str.lower`), `print_filelist` orders every batch with directories before
files and each group ascending by `low`-case-insensitive name (the sort is
by the key (not isdir, lowered name)); and under every `low` that maps the
example's ASCII names the way `str.lower` does, the example batch renders
in the order `A`, `a.txt`, `b.txt`. -/
theorem print_filelist_order (low : String → String) (l : List FileEntry) :
    List.Pairwise (fun a b => keyLe low a b = true) (sortFilelist low l) ∧
    (sortFilelist low l).Perm l ∧
    (∀ low' : String → String, low' "b.txt" = "b.txt" → low' "A" = "a" →
      low' "a.txt" = "a.txt" →
      print_filelist low' [("b.txt", false, "500.0B"), ("A", true, "-"),
          ("a.txt", false, "2.0KiB")] =
        some ["     - A", "2.0KiB a.txt", "500.0B b.txt"]) ∧
    format_size 500 = .ok (some "500.0B") ∧
    format_size 2000 = .ok (some "2.0KiB") := by
  refine ⟨List.sorted_mergeSort (keyLe_trans low) (keyLe_total low) l,
    List.mergeSort_perm l (keyLe low), ?_, ?_, ?_⟩
  · intro low' hb hA ha
    rw [print_filelist, sortFilelist_example low' hb hA ha]
    decide
  · rw [format_size]
    norm_num [fmtPct31, rndHalfEven]
    rfl
  · rw [format_size]
    norm_num [toDouble, fsLoop, fmtPct31, rndHalfEven, abs_div, abs_of_nonneg]
    rfl

/-- Witness for C4's example clause at a concrete lowercase function whose
values on the example names agree with `str.lower`. -/
theorem print_filelist_order_witness :
    print_filelist (fun s => if s = "A" then "a" else s)
        [("b.txt", false, "500.0B"), ("A", true, "-"), ("a.txt", false, "2.0KiB")] =
      some ["     - A", "2.0KiB a.txt", "500.0B b.txt"] :=
  (print_filelist_order (fun s => if s = "A" then "a" else s) []).2.2.1
    (fun s => if s = "A" then "a" else s) (by simp) (by simp) (by simp)

/-! ## C5 / C10: `format_size` unit selection and overflow -/

/-- Once the magnitude is at least `1024 ^ (number of remaining units)`, the
unit loop runs out of units and yields `none`. -/
theorem fsLoop_none (s : String) : ∀ (us : List String) (q : ℚ),
    (1024 : ℚ) ^ us.length ≤ |q| → fsLoop q s us = none := by
  intro us
  induction us with
  | nil => intro q h; rfl
  | cons u rest ih =>
    intro q h
    rw [fsLoop, if_neg]
    · apply ih
      have h1024 : (0:ℚ) < 1024 := by norm_num
      rw [abs_div, abs_of_pos h1024, le_div_iff₀ h1024]
      calc (1024:ℚ) ^ rest.length * 1024 = 1024 ^ (rest.length + 1) := by ring
        _ ≤ |q| := h
    · push_neg
      calc (1024:ℚ) ≤ 1024 ^ (rest.length + 1) := by
            apply le_self_pow₀ (by norm_num)
            omega
        _ ≤ |q| := by simpa using h

/-- Rounding to double precision does not bring a number that is at least
`2 ^ k` (`53 ≤ k`) below `2 ^ k`. -/
theorem toDouble_ge_pow (k n : Nat) (hk : 53 ≤ k) (h : 2 ^ k ≤ n) :
    2 ^ k ≤ toDouble n := by
  have hn0 : n ≠ 0 := by
    intro h0
    rw [h0] at h
    exact absurd (Nat.lt_of_lt_of_le (Nat.pow_pos (by norm_num)) h) (lt_irrefl 0)
  have h53 : ¬ n < 2 ^ 53 := by
    push_neg
    calc (2:ℕ) ^ 53 ≤ 2 ^ k := Nat.pow_le_pow_right (by norm_num) hk
      _ ≤ n := h
  have hlog : k ≤ n.log2 := (Nat.le_log2 hn0).2 h
  rw [toDouble, if_neg h53]
  set s := n.log2 + 1 - 53 with hsdef
  have hsle : s ≤ n.log2 := by omega
  have hq : 2 ^ 52 ≤ n / 2 ^ s := by
    calc (2:ℕ) ^ 52 = 2 ^ (n.log2 - s) := by congr 1; omega
      _ = 2 ^ n.log2 / 2 ^ s := (Nat.pow_div hsle (by norm_num)).symm
      _ ≤ n / 2 ^ s := Nat.div_le_div_right (Nat.log2_self_le hn0)
  have hm : 2 ^ 52 ≤ (if 2 ^ (s-1) < n % 2 ^ s then n / 2 ^ s + 1
      else if n % 2 ^ s < 2 ^ (s-1) then n / 2 ^ s
      else if n / 2 ^ s % 2 = 0 then n / 2 ^ s else n / 2 ^ s + 1) := by
    split <;> [omega; skip]
    split <;> [omega; skip]
    split <;> omega
  calc (2:ℕ) ^ k ≤ 2 ^ 52 * 2 ^ s := by
        rw [← Nat.pow_add]
        apply Nat.pow_le_pow_right (by norm_num)
        omega
    _ ≤ _ := Nat.mul_le_mul_right _ hm

/-- Rounding to double precision at most doubles an integer. -/
theorem toDouble_le (n : Nat) : toDouble n ≤ 2 * n := by
  rw [toDouble]
  split
  · omega
  · next h53 =>
    push_neg at h53
    have hn0 : n ≠ 0 := by
      intro h
      rw [h] at h53
      exact absurd h53 (by norm_num)
    set s := n.log2 + 1 - 53 with hsdef
    have hsle : s ≤ n.log2 := by
      have : 53 ≤ n.log2 := (Nat.le_log2 hn0).2 h53
      omega
    have h2s : 2 ^ s ≤ n :=
      le_trans (Nat.pow_le_pow_right (by norm_num) hsle) (Nat.log2_self_le hn0)
    have hm : (if 2 ^ (s-1) < n % 2 ^ s then n / 2 ^ s + 1
        else if n % 2 ^ s < 2 ^ (s-1) then n / 2 ^ s
        else if n / 2 ^ s % 2 = 0 then n / 2 ^ s else n / 2 ^ s + 1) ≤
          n / 2 ^ s + 1 := by
      split <;> [omega; skip]
      split <;> [omega; skip]
      split <;> omega
    calc _ ≤ (n / 2 ^ s + 1) * 2 ^ s := Nat.mul_le_mul_right _ hm
      _ = n / 2 ^ s * 2 ^ s + 2 ^ s := by ring
      _ ≤ n + n := Nat.add_le_add (Nat.div_mul_le_self n _) h2s
      _ = 2 * n := by ring

/-- Counterexample to C10 as stated: at size `2 ^ 1024` the `int`→`float`
conversion at the first division overflows, so `format_size` raises
`OverflowError` instead of falling off the unit loop and returning `None`. -/
theorem format_size_overflow_counterexample :
    format_size (2 ^ 1024) = .error "OverflowError" ∧
    format_size (2 ^ 1024) ≠ .ok none := by
  have hov : (2:ℕ) ^ 1024 ≤ toDouble (2 ^ 1024) :=
    toDouble_ge_pow 1024 _ (by norm_num) (le_refl _)
  have h1024 : ¬ (2:ℕ) ^ 1024 < 1024 := by
    push_neg
    calc (1024:ℕ) ≤ 2 ^ 1024 := by norm_num
      _ ≤ 2 ^ 1024 := le_refl _
  have he : format_size (2 ^ 1024) = .error "OverflowError" := by
    rw [format_size, if_neg h1024, if_pos hov]
  exact ⟨he, by rw [he]; simp⟩

/-- C10 (amended): for every size of at least `1024 ^ 8` the formatter
produces no formatted string: when the double conversion stays in range the
loop falls off the unit list and the function returns `None`, and when the
conversion overflows it raises `OverflowError` instead. -/
theorem format_size_overflow (n : Nat) (h : 1024 ^ 8 ≤ n) :
    (toDouble n < 2 ^ 1024 → format_size n = .ok none) ∧
    (2 ^ 1024 ≤ toDouble n → format_size n = .error "OverflowError") := by
  have h80 : (2:ℕ) ^ 80 ≤ n := by
    calc (2:ℕ) ^ 80 = 1024 ^ 8 := by norm_num
      _ ≤ n := h
  have hd := toDouble_ge_pow 80 n (by norm_num) h80
  have h1024 : ¬ n < 1024 := by
    push_neg
    calc (1024:ℕ) ≤ 2 ^ 80 := by norm_num
      _ ≤ n := h80
  constructor
  · intro hov
    rw [format_size, if_neg h1024, if_neg (not_le.mpr hov)]
    congr 1
    apply fsLoop_none
    have hq1024 : (0:ℚ) < 1024 := by norm_num
    rw [abs_div, abs_of_pos hq1024, Nat.abs_cast, le_div_iff₀ hq1024]
    show ((1024:ℚ)) ^ 7 * 1024 ≤ _
    calc (1024:ℚ) ^ 7 * 1024 = ((2:ℚ)) ^ 80 := by norm_num
      _ ≤ (toDouble n : ℚ) := by exact_mod_cast hd
  · intro hov
    rw [format_size, if_neg h1024, if_pos hov]

/-- Witness for C10 (amended) at the boundary size `1024 ^ 8`, whose
conversion stays in range. -/
theorem format_size_overflow_witness :
    toDouble (1024 ^ 8) < 2 ^ 1024 ∧ format_size (1024 ^ 8) = .ok none := by
  have hlt : toDouble (1024 ^ 8) < 2 ^ 1024 := by
    calc toDouble (1024 ^ 8) ≤ 2 * 1024 ^ 8 := toDouble_le _
      _ < 2 ^ 1024 := by norm_num
  exact ⟨hlt, (format_size_overflow (1024 ^ 8) (le_refl _)).1 hlt⟩

/-- The unit loop agrees with the spec-side "first unit below 1024" scan on
the units after the first. -/
theorem fsLoop_spec_aux (s : String) (q : ℚ) (hq : 0 ≤ q) :
    fsLoop (q / 1024) s ["Ki", "Mi", "Gi", "Ti", "Pi", "Ei", "Zi"] =
      (([1,2,3,4,5,6,7] : List Nat).find? (fun j => |q| / 1024 ^ j < 1024)).map
        (specRenderAt q s) := by
  have habs : ∀ k : Nat, |q| / 1024 ^ k = q / 1024 ^ k := by
    intro k; rw [abs_of_nonneg hq]
  have hstep : ∀ k : Nat, q / 1024 ^ k / 1024 = q / 1024 ^ (k + 1) := by
    intro k; rw [div_div, ← pow_succ]
  have habs2 : ∀ k : Nat, |q / 1024 ^ k| = q / 1024 ^ k := by
    intro k
    rw [abs_div, abs_of_nonneg hq, abs_of_pos (by positivity : (0:ℚ) < 1024 ^ k)]
  have h1 : q / 1024 = q / 1024 ^ 1 := by norm_num
  simp only [List.find?, habs]
  by_cases c1 : q / 1024 ^ 1 < 1024
  · simp [fsLoop, h1, habs2 1, c1, specRenderAt, unitNames]
  · simp only [fsLoop, h1, habs2 1, if_neg c1, decide_eq_true_eq, c1, hstep]
    by_cases c2 : q / 1024 ^ 2 < 1024
    · simp [fsLoop, habs2 2, c2, specRenderAt, unitNames]
    · simp only [fsLoop, habs2 2, if_neg c2, decide_eq_true_eq, c2, hstep]
      by_cases c3 : q / 1024 ^ 3 < 1024
      · simp [fsLoop, habs2 3, c3, specRenderAt, unitNames]
      · simp only [fsLoop, habs2 3, if_neg c3, decide_eq_true_eq, c3, hstep]
        by_cases c4 : q / 1024 ^ 4 < 1024
        · simp [fsLoop, habs2 4, c4, specRenderAt, unitNames]
        · simp only [fsLoop, habs2 4, if_neg c4, decide_eq_true_eq, c4, hstep]
          by_cases c5 : q / 1024 ^ 5 < 1024
          · simp [fsLoop, habs2 5, c5, specRenderAt, unitNames]
          · simp only [fsLoop, habs2 5, if_neg c5, decide_eq_true_eq, c5, hstep]
            by_cases c6 : q / 1024 ^ 6 < 1024
            · simp [fsLoop, habs2 6, c6, specRenderAt, unitNames]
            · simp only [fsLoop, habs2 6, if_neg c6, decide_eq_true_eq, c6, hstep]
              by_cases c7 : q / 1024 ^ 7 < 1024
              · simp [fsLoop, habs2 7, c7, specRenderAt, unitNames]
              · simp [fsLoop, habs2 7, if_neg c7, c7]

/-- `format_size` refines the spec rendering (smallest unit with magnitude
below 1024) on every size that is exactly representable as a finite double
(the conversion is the identity and stays in range). -/
theorem format_size_eq_spec (n : Nat) (hd : toDouble n = n) (hr : n < 2 ^ 1024) :
    format_size n = .ok (specFormatSmallest (n : ℚ) "B") := by
  have hq : (0:ℚ) ≤ (n : ℚ) := Nat.cast_nonneg n
  have hov : ¬ 2 ^ 1024 ≤ toDouble n := by
    rw [hd]
    exact not_le.mpr hr
  rw [format_size, specFormatSmallest,
    show List.range 8 = 0 :: [1,2,3,4,5,6,7] from rfl]
  by_cases h0 : n < 1024
  · have h0q : |(n:ℚ)| / 1024 ^ 0 < 1024 := by
      rw [abs_of_nonneg hq, pow_zero, div_one]
      exact_mod_cast h0
    simp [h0, List.find?, h0q, specRenderAt, unitNames]
  · have h0q : ¬ (|(n:ℚ)| / 1024 ^ 0 < 1024) := by
      rw [abs_of_nonneg hq, pow_zero, div_one]
      push_neg
      exact_mod_cast Nat.le_of_not_lt h0
    rw [if_neg h0, if_neg hov, hd, fsLoop_spec_aux "B" (n:ℚ) hq]
    have hdec : decide (|(n:ℚ)| / 1024 ^ 0 < 1024) = false := decide_eq_false h0q
    simp only [List.find?, hdec]

/-- Counterexample to C5 as stated: at size 1536 the literal reading "the
largest unit for which the magnitude is below 1024" picks `Zi` and renders
`0.0ZiB`, while the code renders `1.5KiB` (the claim's own example). -/
theorem format_size_largest_counterexample :
    format_size 1536 = .ok (some "1.5KiB") ∧
    specFormatLargest 1536 "B" = some "0.0ZiB" ∧
    specFormatLargest 1536 "B" ≠ some "1.5KiB" := by
  have h1 : format_size 1536 = .ok (some "1.5KiB") := by
    rw [format_size]
    norm_num [toDouble, fsLoop, fmtPct31, rndHalfEven, abs_div, abs_of_nonneg]
    rfl
  have h2 : specFormatLargest 1536 "B" = some "0.0ZiB" := by
    rw [specFormatLargest, show (List.range 8).reverse = [7,6,5,4,3,2,1,0] from rfl]
    have hc : |(1536:ℚ)| / 1024 ^ 7 < 1024 := by
      rw [abs_of_nonneg (by norm_num : (0:ℚ) ≤ 1536), div_lt_iff₀ (by positivity)]
      norm_num
    simp only [List.find?, decide_eq_true hc, Option.map_some']
    rw [specRenderAt]
    norm_num [fmtPct31, rndHalfEven, unitNames]
    rfl
  exact ⟨h1, h2, by rw [h2]; simp⟩

/-- C5 (amended): for every non-negative size exactly representable in
double precision (the rounding `toDouble` is the identity and the value is
within the double range — in particular every size below `2 ^ 53`),
`format_size` renders in base-1024 units with one decimal place, choosing
the smallest (first) unit for which the magnitude is below 1024; in
particular 0, 1024, 1536 and 1048576 render as `0.0B`, `1.0KiB`, `1.5KiB`
and `1.0MiB`. -/
theorem format_size_smallest_unit (n : Nat)
    (hd : toDouble n = n) (hr : n < 2 ^ 1024) :
    format_size n = .ok (specFormatSmallest (n : ℚ) "B") ∧
    format_size 0 = .ok (some "0.0B") ∧ format_size 1024 = .ok (some "1.0KiB") ∧
    format_size 1536 = .ok (some "1.5KiB") ∧
    format_size 1048576 = .ok (some "1.0MiB") := by
  refine ⟨format_size_eq_spec n hd hr, ?_, ?_, ?_, ?_⟩ <;>
    · rw [format_size]
      norm_num [toDouble, fsLoop, fmtPct31, rndHalfEven, abs_div, abs_of_nonneg]
      rfl

/-- Witness for C5 (amended) at size 1536. -/
theorem format_size_smallest_unit_witness :
    format_size 1536 = .ok (specFormatSmallest (1536 : ℚ) "B") ∧
    format_size 0 = .ok (some "0.0B") ∧ format_size 1024 = .ok (some "1.0KiB") ∧
    format_size 1536 = .ok (some "1.5KiB") ∧
    format_size 1048576 = .ok (some "1.0MiB") :=
  format_size_smallest_unit 1536 (by norm_num [toDouble]) (by norm_num)

/-! ## C3: absolute fragments resolve to themselves -/

theorem findIdxCh_get {ch : Char} : ∀ {l : List Char} {n : Nat},
    findIdxCh ch l = some n → l[n]? = some ch := by
  intro l
  induction l with
  | nil => intro n h; simp [findIdxCh] at h
  | cons c rest ih =>
    intro n h
    rw [findIdxCh] at h
    by_cases hc : c = ch
    · rw [if_pos hc] at h
      cases h
      simp [hc]
    · rw [if_neg hc] at h
      rcases hm : findIdxCh ch rest with _ | m
      · rw [hm] at h; simp at h
      · rw [hm] at h
        simp only [Option.map_some'] at h
        cases h
        simpa using ih hm

theorem findFrom_get {p : List Char} {ch : Char} {k i : Nat}
    (h : findFrom p ch k = some i) : p[i]? = some ch := by
  rw [findFrom] at h
  rcases hm : findIdxCh ch (p.drop k) with _ | m
  · rw [hm] at h; simp at h
  · rw [hm] at h
    simp only [Option.map_some'] at h
    cases h
    have := findIdxCh_get hm
    rw [List.getElem?_drop] at this
    rwa [Nat.add_comm]

theorem driveIdx_cases (p : List Char) :
    driveIdx p = 0 ∨ (driveIdx p = 2 ∧ (normSeps p)[1]? = some ':') ∨
    driveIdx p = p.length ∨ (normSeps p)[driveIdx p]? = some '\\' := by
  simp only [driveIdx]
  split
  · split
    · rcases h1 : findFrom (normSeps p) '\\' 2 with _ | index
      · simp
      · rcases h2 : findFrom (normSeps p) '\\' (index + 1) with _ | index2
        · simp [h2]
        · by_cases he : index2 = index + 1
          · simp [h2, he]
          · simp only [h2, he, if_false]
            right; right; right
            exact findFrom_get h2
    · split
      · next h => right; left; exact ⟨rfl, by simpa using h⟩
      · simp
  · simp

theorem replSep_backslash {c : Char} (h : replSep c = '\\') : isSepC c = true := by
  rw [replSep] at h
  split at h
  · next hcase => simp [isSepC, hcase]
  · simp [isSepC, h]

theorem normSeps_get (p : List Char) (i : Nat) :
    (normSeps p)[i]? = p[i]?.map replSep := by
  simp [normSeps]

theorem splitdrive_fst_snd (p : List Char) :
    (splitdrive p).1 ++ (splitdrive p).2 = p := List.take_append_drop _ p

theorem splitdrive_snd_of_fst_nil {cur : List Char}
    (h : (splitdrive cur).1 = []) : (splitdrive cur).2 = cur := by
  simp only [splitdrive] at *
  rcases List.take_eq_nil_iff.mp h with h0 | h0
  · simp [h0]
  · simp [h0]

theorem ntjoin_of_drive_nil (cur p : List Char)
    (hcur : (splitdrive cur).1 = []) :
    ntjoin cur p =
      if (splitdrive p).2.head?.any isSepC ∨ (splitdrive p).1 ≠ []
      then joinFinish (splitdrive p).1 (splitdrive p).2
      else joinRel [] cur (splitdrive p).2 := by
  simp only [ntjoin, hcur, splitdrive_snd_of_fst_nil hcur]
  by_cases h1 : (splitdrive p).2.head?.any isSepC
  · simp [h1]
  · by_cases h2 : (splitdrive p).1 = []
    · simp [h1, h2]
    · have hlow : lowerL (splitdrive p).1 ≠ lowerL [] := by
        simp only [lowerL, List.map_nil]
        intro hx
        exact h2 (List.map_eq_nil_iff.mp hx)
      simp [h1, h2, hlow]

theorem ntjoin_absolute (cur frag : List Char)
    (hcur : (splitdrive cur).1 = []) (hfrag : frag.head? = some '\\') :
    ntjoin cur frag = frag := by
  have hne : frag ≠ [] := by
    intro h; rw [h] at hfrag; simp at hfrag
  rw [ntjoin_of_drive_nil cur frag hcur]
  rcases driveIdx_cases frag with hk | ⟨hk, hc⟩ | hk | hC
  -- no drive: frag begins with the separator, absolute branch
  · have hpp : (splitdrive frag).2 = frag := by
      simp [splitdrive, hk]
    have hsep : (splitdrive frag).2.head?.any isSepC = true := by
      rw [hpp, hfrag]
      simp [isSepC]
    rw [if_pos (Or.inl hsep), joinFinish, if_neg]
    · rw [splitdrive_fst_snd]
    · rw [hsep]
      simp
  -- an `X:` drive: here frag = '\' ':' …, and join re-concatenates it
  · have h1 : frag[1]? = some ':' := by
      rw [normSeps_get] at hc
      rcases h : frag[1]? with _ | c
      · rw [h] at hc; simp at hc
      · rw [h] at hc
        simp only [Option.map_some', Option.some.injEq] at hc
        rw [replSep] at hc
        split at hc
        · exact absurd hc (by decide)
        · simp [hc]
    rcases frag with _ | ⟨c0, t⟩
    · simp at hfrag
    · rcases t with _ | ⟨c1, rest⟩
      · simp at h1
      · have hc0 : c0 = '\\' := by simpa using hfrag
        have hc1 : c1 = ':' := by simpa using h1
        subst hc0; subst hc1
        have hpd : (splitdrive ('\\' :: ':' :: rest)).1 = ['\\', ':'] := by
          simp [splitdrive, hk]
        have hpp : (splitdrive ('\\' :: ':' :: rest)).2 = rest := by
          simp [splitdrive, hk]
        rw [if_pos (Or.inr (by rw [hpd]; simp)), joinFinish, hpd, hpp, if_neg]
        · rfl
        · simp
  -- the whole string is a (UNC) drive: the fragment survives unchanged
  · have hpd : (splitdrive frag).1 = frag := by simp [splitdrive, hk]
    have hpp : (splitdrive frag).2 = [] := by simp [splitdrive, hk]
    rw [if_pos (Or.inr (by rw [hpd]; exact hne)), joinFinish, if_neg, hpd, hpp,
      List.append_nil]
    rw [hpp]
    simp
  -- a drive followed by a separator: absolute branch
  · have hsep : (splitdrive frag).2.head?.any isSepC = true := by
      have hget : frag[driveIdx frag]?.map replSep = some '\\' := by
        rw [← normSeps_get]; exact hC
      rcases hx : frag[driveIdx frag]? with _ | c
      · rw [hx] at hget; simp at hget
      · rw [hx] at hget
        simp only [Option.map_some', Option.some.injEq] at hget
        have hcs := replSep_backslash hget
        simp only [splitdrive]
        rw [List.head?_eq_getElem?, List.getElem?_drop, Nat.add_zero, hx]
        simp [hcs]
    rw [if_pos (Or.inl hsep), joinFinish, if_neg]
    · rw [splitdrive_fst_snd]
    · rw [hsep]
      simp

/-! The C3 claim theorems. `path_for_absolute` adds the one hypothesis the
counterexample forces: the cursor must carry no drive. -/

/-- C3 (amended): for every cursor string carrying no drive (its
`splitdrive` drive part is empty — every backslash-rooted cursor the shell
normally holds qualifies) and every fragment that is an absolute
(leading-backslash), already-normalized remote path, `_path_for` returns the
fragment unchanged. -/
theorem path_for_absolute (cur frag : String)
    (hdrive : (splitdrive cur.data).1 = [])
    (habs : frag.data.head? = some '\\')
    (hnorm : normpath frag.data = frag.data) :
    path_for cur frag = frag := by
  rw [path_for, ntjoin_absolute cur.data frag.data hdrive habs, hnorm]

/-- Counterexample to C3 as stated: against the cursor string `C:` the
absolute, already-normalized fragment `\a` resolves to `C:\a`, not to
itself. -/
theorem path_for_absolute_counterexample :
    ("\\a" : String).data.head? = some '\\' ∧
    normpath ("\\a" : String).data = ("\\a" : String).data ∧
    path_for "C:" "\\a" = "C:\\a" ∧ path_for "C:" "\\a" ≠ "\\a" := by decide

/-- Witness for C3 (amended) at a concrete drive-free cursor. -/
theorem path_for_absolute_witness :
    path_for "\\x" "\\a\\b" = "\\a\\b" :=
  path_for_absolute "\\x" "\\a\\b" (by decide) (by decide) (by decide)

/-! ## C7: the cursor invariant

The heart of the claim: `normpath` of `join(cursor, fragment)` is again a
normalized absolute backslash path, provided the cursor is one and the
fragment is plain (no colon, no leading double separator).  The development
characterises `splitSep`/`joinSep`, the component loop `npLoop`, and then
the shapes `join` can produce.  -/

theorem splitSep_ne_nil : ∀ l : List Char, splitSep l ≠ [] := by
  intro l
  cases l with
  | nil => simp [splitSep]
  | cons c rest =>
    rcases h : splitSep rest with _ | ⟨s, ss⟩
    · simp [splitSep, h]
    · simp only [splitSep, h]
      split <;> simp

theorem joinSep_splitSep : ∀ l : List Char, joinSep (splitSep l) = l := by
  intro l
  induction l with
  | nil => rfl
  | cons c rest ih =>
    rcases h : splitSep rest with _ | ⟨s, ss⟩
    · exact absurd h (splitSep_ne_nil rest)
    · rw [h] at ih
      by_cases hc : c = '\\'
      · simp only [splitSep, h, if_pos hc, hc]
        rcases ss with _ | ⟨s2, ss2⟩ <;> simp_all [joinSep]
      · simp only [splitSep, h, if_neg hc]
        rcases ss with _ | ⟨s2, ss2⟩ <;> simp_all [joinSep]

theorem splitSep_no_sep : ∀ (l : List Char) (s : List Char),
    s ∈ splitSep l → '\\' ∉ s := by
  intro l
  induction l with
  | nil =>
    intro s hs
    simp [splitSep] at hs
    simp [hs]
  | cons c rest ih =>
    intro s hs
    rcases h : splitSep rest with _ | ⟨t, ts⟩
    · exact absurd h (splitSep_ne_nil rest)
    · by_cases hc : c = '\\'
      · simp only [splitSep, h, if_pos hc] at hs
        rcases List.mem_cons.mp hs with hs | hs
        · simp [hs]
        · exact ih s (h ▸ hs)
      · simp only [splitSep, h, if_neg hc] at hs
        rcases List.mem_cons.mp hs with hs | hs
        · rw [hs]
          intro hmem
          rcases List.mem_cons.mp hmem with h1 | hmem
          · exact hc h1.symm
          · exact ih t (h ▸ List.mem_cons_self t ts) hmem
        · exact ih s (h ▸ List.mem_cons_of_mem t hs)

theorem splitSep_chars : ∀ (l : List Char) (s : List Char) (c : Char),
    s ∈ splitSep l → c ∈ s → c ∈ l := by
  intro l
  induction l with
  | nil =>
    intro s c hs hc
    simp [splitSep] at hs
    rw [hs] at hc
    simp at hc
  | cons a rest ih =>
    intro s c hs hc
    rcases h : splitSep rest with _ | ⟨t, ts⟩
    · exact absurd h (splitSep_ne_nil rest)
    · by_cases ha : a = '\\'
      · simp only [splitSep, h, if_pos ha] at hs
        rcases List.mem_cons.mp hs with hs | hs
        · rw [hs] at hc; simp at hc
        · exact List.mem_cons_of_mem a (ih s c (h ▸ hs) hc)
      · simp only [splitSep, h, if_neg ha] at hs
        rcases List.mem_cons.mp hs with hs | hs
        · rw [hs] at hc
          rcases List.mem_cons.mp hc with h1 | hc
          · rw [h1]; exact List.mem_cons_self a rest
          · exact List.mem_cons_of_mem a
              (ih t c (h ▸ List.mem_cons_self t ts) hc)
        · exact List.mem_cons_of_mem a (ih s c (h ▸ List.mem_cons_of_mem t hs) hc)

theorem splitSep_single : ∀ (s : List Char), '\\' ∉ s → splitSep s = [s] := by
  intro s
  induction s with
  | nil => intro _; rfl
  | cons c t ih =>
    intro h
    have hc : c ≠ '\\' := fun hx => h (hx ▸ List.mem_cons_self c t)
    have ht : '\\' ∉ t := fun hx => h (List.mem_cons_of_mem c hx)
    simp only [splitSep, ih ht, if_neg hc]

theorem splitSep_append_sep : ∀ (s t : List Char), '\\' ∉ s →
    splitSep (s ++ '\\' :: t) = s :: splitSep t := by
  intro s
  induction s with
  | nil =>
    intro t _
    rcases h : splitSep t with _ | ⟨u, us⟩
    · exact absurd h (splitSep_ne_nil t)
    · simp [splitSep, h]
  | cons c s' ih =>
    intro t h
    have hc : c ≠ '\\' := fun hx => h (hx ▸ List.mem_cons_self c s')
    have hs' : '\\' ∉ s' := fun hx => h (List.mem_cons_of_mem c hx)
    rcases hrec : splitSep (s' ++ '\\' :: t) with _ | ⟨u, us⟩
    · exact absurd hrec (splitSep_ne_nil _)
    · have := ih t hs'
      rw [hrec] at this
      cases this
      have hgoal : splitSep (c :: (s' ++ '\\' :: t)) = (c :: s') :: splitSep t := by
        simp only [splitSep, hrec, if_neg hc]
      simpa using hgoal

theorem splitSep_joinSep : ∀ (segs : List (List Char)), segs ≠ [] →
    (∀ s ∈ segs, '\\' ∉ s) → splitSep (joinSep segs) = segs := by
  intro segs
  induction segs with
  | nil => intro h _; exact absurd rfl h
  | cons s ss ih =>
    intro _ hall
    rcases ss with _ | ⟨s2, ss2⟩
    · exact splitSep_single s (hall s (List.mem_cons_self s []))
    · rw [show joinSep (s :: s2 :: ss2) = s ++ '\\' :: joinSep (s2 :: ss2) from rfl]
      rw [splitSep_append_sep s _ (hall s (List.mem_cons_self s _))]
      rw [ih (by simp) (fun u hu => hall u (List.mem_cons_of_mem s hu))]

theorem mem_joinSep : ∀ (segs : List (List Char)) (c : Char),
    c ∈ joinSep segs → c = '\\' ∨ ∃ s ∈ segs, c ∈ s := by
  intro segs
  induction segs with
  | nil => intro c hc; simp [joinSep] at hc
  | cons s ss ih =>
    intro c hc
    rcases ss with _ | ⟨s2, ss2⟩
    · exact Or.inr ⟨s, List.mem_cons_self s [], hc⟩
    · rw [show joinSep (s :: s2 :: ss2) = s ++ '\\' :: joinSep (s2 :: ss2) from rfl] at hc
      rcases List.mem_append.mp hc with hc | hc
      · exact Or.inr ⟨s, List.mem_cons_self s _, hc⟩
      · rcases List.mem_cons.mp hc with hc | hc
        · exact Or.inl hc
        · rcases ih c hc with hc | ⟨u, hu, hcu⟩
          · exact Or.inl hc
          · exact Or.inr ⟨u, List.mem_cons_of_mem s hu, hcu⟩

theorem all_getLast : ∀ (s : List Char) (p : Char → Bool), s ≠ [] →
    s.all p → ∃ c, s.getLast? = some c ∧ p c := by
  intro s
  induction s with
  | nil => intro p h _; exact absurd rfl h
  | cons c t ih =>
    intro p _ hall
    rcases t with _ | ⟨c2, t2⟩
    · exact ⟨c, rfl, by simpa using hall⟩
    · rcases ih p (by simp) (by simp_all [List.all_cons]) with ⟨d, hd, hpd⟩
      exact ⟨d, by rw [List.getLast?_cons_cons]; exact hd, hpd⟩

theorem joinSep_getLast : ∀ (segs : List (List Char)), segs ≠ [] →
    (∀ s ∈ segs, isSeg s) →
    ∃ c, (joinSep segs).getLast? = some c ∧ isSegChar c := by
  intro segs
  induction segs with
  | nil => intro h _; exact absurd rfl h
  | cons s ss ih =>
    intro _ hall
    have hseg : isSeg s = true := hall s (List.mem_cons_self s ss)
    have hne : s ≠ [] := by
      rw [isSeg] at hseg
      simp only [Bool.and_eq_true, decide_eq_true_eq] at hseg
      exact hseg.1.1.1
    have hchars : s.all isSegChar := by
      rw [isSeg] at hseg
      simp only [Bool.and_eq_true] at hseg
      exact hseg.2
    rcases ss with _ | ⟨s2, ss2⟩
    · exact all_getLast s isSegChar hne hchars
    · rcases ih (by simp) (fun u hu => hall u (List.mem_cons_of_mem s hu)) with
        ⟨d, hd, hpd⟩
      refine ⟨d, ?_, hpd⟩
      rw [show joinSep (s :: s2 :: ss2) = s ++ '\\' :: joinSep (s2 :: ss2) from rfl]
      rw [List.getLast?_append_of_ne_nil s (List.cons_ne_nil _ _)]
      rcases hj : joinSep (s2 :: ss2) with _ | ⟨e, es⟩
      · rw [hj] at hd; simp at hd
      · rw [hj] at hd
        rw [List.getLast?_cons_cons]
        exact hd

theorem npLoop_mem : ∀ (rooted : Bool) (todo acc : List (List Char)) (s : List Char),
    s ∈ npLoop rooted acc todo → s ∈ acc ∨ s ∈ todo := by
  intro rooted todo
  induction todo with
  | nil => intro acc s hs; exact Or.inl hs
  | cons c rest ih =>
    intro acc s hs
    rw [npLoop] at hs
    split at hs
    · rcases ih acc s hs with h | h
      · exact Or.inl h
      · exact Or.inr (List.mem_cons_of_mem c h)
    · split at hs
      · split at hs
        · rcases ih acc.dropLast s hs with h | h
          · exact Or.inl (List.dropLast_sublist acc |>.mem h)
          · exact Or.inr (List.mem_cons_of_mem c h)
        · split at hs
          · rcases ih acc s hs with h | h
            · exact Or.inl h
            · exact Or.inr (List.mem_cons_of_mem c h)
          · rcases ih (acc ++ [c]) s hs with h | h
            · rcases List.mem_append.mp h with h | h
              · exact Or.inl h
              · simp only [List.mem_singleton] at h
                exact Or.inr (h ▸ List.mem_cons_self c rest)
            · exact Or.inr (List.mem_cons_of_mem c h)
      · rcases ih (acc ++ [c]) s hs with h | h
        · rcases List.mem_append.mp h with h | h
          · exact Or.inl h
          · simp only [List.mem_singleton] at h
            exact Or.inr (h ▸ List.mem_cons_self c rest)
        · exact Or.inr (List.mem_cons_of_mem c h)

theorem npLoop_rooted_normal : ∀ (todo acc : List (List Char)),
    (∀ s ∈ acc, s ≠ [] ∧ s ≠ ['.'] ∧ s ≠ ['.', '.']) →
    ∀ s ∈ npLoop true acc todo, s ≠ [] ∧ s ≠ ['.'] ∧ s ≠ ['.', '.'] := by
  intro todo
  induction todo with
  | nil => intro acc hacc s hs; exact hacc s hs
  | cons c rest ih =>
    intro acc hacc s hs
    rw [npLoop] at hs
    split at hs
    · exact ih acc hacc s hs
    · next hnd =>
      split at hs
      · next hdd =>
        split at hs
        · exact ih acc.dropLast
            (fun u hu => hacc u (List.dropLast_sublist acc |>.mem hu)) s hs
        · next hcond =>
          split at hs
          · exact ih acc hacc s hs
          · next hcond2 =>
            -- this branch appends `..`; impossible for a rooted path with a
            -- normal processed prefix
            exfalso
            rcases Decidable.not_and_iff_or_not.mp hcond with hne | hlast
            · rcases Decidable.not_and_iff_or_not.mp hcond2 with h0 | h0
              · exact h0 (Decidable.not_not.mp hne)
              · exact h0 rfl
            · have hlast' : acc.getLast? = some ['.', '.'] := Decidable.not_not.mp hlast
              rcases List.mem_getLast?_eq_getLast
                  (show (['.', '.'] : List Char) ∈ acc.getLast? from hlast') with
                ⟨hne2, heq⟩
              exact (hacc _ (heq ▸ List.getLast_mem hne2)).2.2 rfl
      · next hdd =>
        refine ih (acc ++ [c]) ?_ s hs
        intro u hu
        rcases List.mem_append.mp hu with hu | hu
        · exact hacc u hu
        · simp only [List.mem_singleton] at hu
          subst hu
          push_neg at hnd
          exact ⟨hnd.1, hnd.2, hdd⟩

theorem replSep_ne_slash (c : Char) : replSep c ≠ '/' := by
  rw [replSep]
  split
  · decide
  · next h => exact h

theorem normSeps_no_slash (p : List Char) : '/' ∉ normSeps p := by
  intro h
  rcases List.mem_map.mp h with ⟨c, _, hc⟩
  exact replSep_ne_slash c hc

theorem normSeps_idem (p : List Char) : normSeps (normSeps p) = normSeps p := by
  simp only [normSeps, List.map_map]
  apply List.map_congr_left
  intro c _
  by_cases h : c = '/'
  · simp [Function.comp, replSep, h]
  · simp [Function.comp, replSep, h]

theorem take_two_eq {l : List Char} {a b : Char} (h : l.take 2 = [a, b]) :
    l[0]? = some a ∧ l[1]? = some b := by
  rcases l with _ | ⟨x, _ | ⟨y, t⟩⟩ <;> simp_all

theorem driveIdx_zero_of_get1 (q : List Char)
    (h1s : (normSeps q)[1]? ≠ some '\\') (h1c : (normSeps q)[1]? ≠ some ':') :
    driveIdx q = 0 := by
  rw [driveIdx]
  split
  · rw [if_neg, if_neg]
    · rw [List.get?_eq_getElem?]
      exact h1c
    · intro hand
      exact h1s (take_two_eq hand.1).2
  · rfl

theorem normpath_normAbs (j : List Char)
    (hspec : isSpecialPrefix j = false)
    (hhead : (normSeps j).head? = some '\\')
    (h1s : (normSeps j)[1]? ≠ some '\\')
    (h1c : (normSeps j)[1]? ≠ some ':')
    (hcolon : ':' ∉ normSeps j) :
    isNormAbsPath ⟨normpath j⟩ = true := by
  have hdz : driveIdx (normSeps j) = 0 := by
    apply driveIdx_zero_of_get1 <;> rw [normSeps_idem] <;> assumption
  have hsd1 : (splitdrive (normSeps j)).1 = [] := by
    simp [splitdrive, hdz]
  have hsd2 : (splitdrive (normSeps j)).2 = normSeps j := by
    simp [splitdrive, hdz]
  rw [normpath]
  rw [if_neg (by rw [hspec]; exact Bool.false_ne_true)]
  simp only [hsd1, hsd2, hhead, List.nil_append]
  simp only [if_true, List.getLast?_singleton, decide_True]
  set body := (normSeps j).dropWhile (· = '\\') with hbody
  set comps := npLoop true [] (splitSep body) with hcomps
  have hallseg : ∀ s ∈ comps, isSeg s = true := by
    intro s hs
    have hnormal := npLoop_rooted_normal (splitSep body) [] (by simp) s hs
    have hmem : s ∈ splitSep body := by
      rcases npLoop_mem true (splitSep body) [] s hs with h | h
      · simp at h
      · exact h
    have hnosep : '\\' ∉ s := splitSep_no_sep body s hmem
    have hchars : s.all isSegChar := by
      rw [List.all_eq_true]
      intro c hc
      have hcb : c ∈ body := splitSep_chars body s c hmem hc
      have hcq : c ∈ normSeps j := (List.dropWhile_sublist _).mem hcb
      rw [isSegChar]
      simp only [Bool.and_eq_true, decide_eq_true_eq]
      refine ⟨⟨?_, ?_⟩, ?_⟩
      · intro he; exact hnosep (he ▸ hc)
      · intro he; exact normSeps_no_slash j (he ▸ hcq)
      · intro he; exact hcolon (he ▸ hcq)
    rw [isSeg]
    simp only [Bool.and_eq_true, decide_eq_true_eq]
    exact ⟨⟨⟨hnormal.1, hnormal.2.1⟩, hnormal.2.2⟩, hchars⟩
  have hnosepall : ∀ s ∈ comps, '\\' ∉ s := by
    intro s hs
    have hmem : s ∈ splitSep body := by
      rcases npLoop_mem true (splitSep body) [] s hs with h | h
      · simp at h
      · exact h
    exact splitSep_no_sep body s hmem
  split
  · next hboth =>
    exact absurd hboth.1 (List.cons_ne_nil _ _)
  · rw [show (⟨['\\'] ++ joinSep comps⟩ : String) = ⟨'\\' :: joinSep comps⟩ from rfl]
    rw [show isNormAbsPath ⟨'\\' :: joinSep comps⟩ =
        (decide (joinSep comps = []) || (splitSep (joinSep comps)).all isSeg) from rfl]
    rcases hcs : comps with _ | ⟨c0, cs⟩
    · simp [joinSep]
    · have hjs : splitSep (joinSep (c0 :: cs)) = c0 :: cs :=
        splitSep_joinSep (c0 :: cs) (by simp) (by rw [← hcs]; exact hnosepall)
      rw [hjs]
      have hall2 : ∀ s ∈ c0 :: cs, isSeg s = true := by rw [← hcs]; exact hallseg
      rw [Bool.or_eq_true]
      right
      rw [List.all_eq_true]
      exact hall2

theorem replSep_of_sep {c : Char} (h : isSepC c = true) : replSep c = '\\' := by
  rw [isSepC] at h
  simp only [Bool.or_eq_true, decide_eq_true_eq] at h
  rcases h with h | h <;> simp [replSep, h]

theorem replSep_of_not_sep {c : Char} (h : isSepC c = false) : replSep c = c := by
  rw [isSepC] at h
  simp only [Bool.or_eq_false_iff, decide_eq_false_iff_not] at h
  simp [replSep, h.2]

theorem replSep_eq_colon {c : Char} (h : replSep c = ':') : c = ':' := by
  rw [replSep] at h
  split at h
  · exact absurd h (by decide)
  · exact h

theorem normSeps_no_colon {p : List Char} (h : ':' ∉ p) : ':' ∉ normSeps p := by
  intro hm
  rcases List.mem_map.mp hm with ⟨c, hc, hrc⟩
  exact h (replSep_eq_colon hrc ▸ hc)

theorem normSeps_of_no_slash {p : List Char} (h : '/' ∉ p) : normSeps p = p := by
  induction p with
  | nil => rfl
  | cons c t ih =>
    have hc : c ≠ '/' := fun hx => h (hx ▸ List.mem_cons_self c t)
    have ht : '/' ∉ t := fun hx => h (List.mem_cons_of_mem c hx)
    simp only [normSeps, List.map_cons] at ih ⊢
    rw [ih ht, replSep, if_neg hc]

theorem isSpecialPrefix_chars {j : List Char} (h : isSpecialPrefix j = true) :
    j[0]? = some '\\' ∧ j[1]? = some '\\' := by
  rw [isSpecialPrefix] at h
  rcases j with _ | ⟨a, _ | ⟨b, t⟩⟩ <;> simp_all
  all_goals
    rcases h with h | h <;> simp_all

theorem splitSep_cons_sep (t : List Char) :
    splitSep ('\\' :: t) = [] :: splitSep t := by
  rcases h : splitSep t with _ | ⟨s, ss⟩
  · exact absurd h (splitSep_ne_nil t)
  · simp [splitSep, h]

/-- Facts packaged from `isNormAbsPath`: the shape, the character
restrictions, and the last character. -/
theorem normAbs_facts (cur : String) (h : isNormAbsPath cur = true) :
    ∃ rest, cur.data = '\\' :: rest ∧
      (':' ∉ cur.data ∧ '/' ∉ cur.data) ∧
      (∀ r0 t, rest = r0 :: t → r0 ≠ '\\') ∧
      (rest ≠ [] → ∃ c, rest.getLast? = some c ∧ isSegChar c = true) := by
  rw [isNormAbsPath] at h
  split at h
  case h_2 => exact absurd h (by simp)
  case h_1 rest heq =>
    have h' : rest = [] ∨ (splitSep rest).all isSeg = true := by
      simpa using h
    rw [heq]
    refine ⟨rest, rfl, ?_, ?_, ?_⟩
    · rcases h' with h' | h'
      · subst h'; constructor <;> decide
      · have hseg : ∀ c, c ∈ rest → c = '\\' ∨ isSegChar c = true := by
          intro c hc
          rw [← joinSep_splitSep rest] at hc
          rcases mem_joinSep _ c hc with hc | ⟨s, hs, hcs⟩
          · exact Or.inl hc
          · right
            have hiseg := (List.all_eq_true.mp h') s hs
            rw [isSeg] at hiseg
            simp only [Bool.and_eq_true] at hiseg
            exact (List.all_eq_true.mp hiseg.2) c hcs
        constructor
        · intro hm
          rcases List.mem_cons.mp hm with hm | hm
          · exact absurd hm.symm (by decide)
          · rcases hseg ':' hm with hx | hx
            · exact absurd hx (by decide)
            · rw [isSegChar] at hx
              simp at hx
        · intro hm
          rcases List.mem_cons.mp hm with hm | hm
          · exact absurd hm.symm (by decide)
          · rcases hseg '/' hm with hx | hx
            · exact absurd hx (by decide)
            · rw [isSegChar] at hx
              simp at hx
    · intro r0 t ht hr0
      rcases h' with h' | h'
      · rw [h'] at ht; exact List.noConfusion ht
      · rw [ht, hr0, splitSep_cons_sep] at h'
        simp [isSeg] at h'
    · intro hne
      rcases h' with h' | h'
      · exact absurd h' hne
      · rw [← joinSep_splitSep rest]
        exact joinSep_getLast (splitSep rest) (splitSep_ne_nil rest)
          (List.all_eq_true.mp h')

theorem plain_no_colon {a : String} (h : plainFragment a = true) : ':' ∉ a.data := by
  rw [plainFragment] at h
  simp only [Bool.and_eq_true, List.all_eq_true, decide_eq_true_eq] at h
  intro hm
  exact (h.1 ':' hm) rfl

theorem plain_not_two_seps {a : String} (h : plainFragment a = true) :
    ∀ c1 c2 t, a.data = c1 :: c2 :: t → ¬(isSepC c1 = true ∧ isSepC c2 = true) := by
  rw [plainFragment] at h
  simp only [Bool.and_eq_true] at h
  intro c1 c2 t heq hand
  have h2 := h.2
  rw [heq] at h2
  simp only [hand.1, hand.2, Bool.and_self, Bool.not_true] at h2
  exact Bool.false_ne_true h2

theorem driveIdx_zero_of_plain (q : List Char)
    (hunc : ¬((normSeps q).take 2 = ['\\', '\\']))
    (h1c : (normSeps q)[1]? ≠ some ':') :
    driveIdx q = 0 := by
  rw [driveIdx]
  split
  · rw [if_neg fun hand => hunc hand.1, if_neg ?_]
    rw [List.get?_eq_getElem?]
    exact h1c
  · rfl

theorem isSepC_false_facts {c : Char} (h : isSepC c = false) :
    c ≠ '\\' ∧ c ≠ '/' ∧ replSep c = c := by
  rw [isSepC] at h
  simp only [Bool.or_eq_false_iff, decide_eq_false_iff_not] at h
  exact ⟨h.1, h.2, by simp [replSep, h.2]⟩

theorem isSegChar_not_sep {c : Char} (h : isSegChar c = true) : isSepC c = false := by
  rw [isSegChar] at h
  simp only [Bool.and_eq_true, decide_eq_true_eq] at h
  rw [isSepC]
  simp [h.1.1, h.1.2]

theorem plain_driveIdx {a : String} (h : plainFragment a = true) :
    driveIdx a.data = 0 := by
  rcases hd : a.data with _ | ⟨c1, _ | ⟨c2, t⟩⟩
  · rfl
  · rfl
  · apply driveIdx_zero_of_plain
    · intro htake
      have htake' : replSep c1 = '\\' ∧ replSep c2 = '\\' := by
        simpa [normSeps] using htake
      exact plain_not_two_seps h c1 c2 t hd
        ⟨replSep_backslash htake'.1, replSep_backslash htake'.2⟩
    · intro h1
      have h1' : replSep c2 = ':' := by
        simpa [normSeps] using h1
      have hc2 : c2 = ':' := replSep_eq_colon h1'
      apply plain_no_colon h
      rw [hd, ← hc2]
      exact List.mem_cons_of_mem c1 (List.mem_cons_self c2 t)

theorem normAbs_driveIdx {cur : String} (h : isNormAbsPath cur = true) :
    driveIdx cur.data = 0 := by
  rcases normAbs_facts cur h with ⟨rest, hd, ⟨hcolon, hslash⟩, hheadr, _⟩
  rw [hd]
  rcases rest with _ | ⟨r0, t⟩
  · rfl
  · have hns : normSeps ('\\' :: r0 :: t) = '\\' :: r0 :: t := by
      apply normSeps_of_no_slash
      rw [hd] at hslash
      exact hslash
    apply driveIdx_zero_of_plain
    · rw [hns]
      intro htake
      have : r0 = '\\' := by simpa [List.take] using htake
      exact hheadr r0 t rfl this
    · rw [hns]
      intro h1
      have : r0 = ':' := by simpa using h1
      rw [hd] at hcolon
      exact hcolon (this ▸ List.mem_cons_of_mem '\\' (List.mem_cons_self r0 t))

/-- Resolving a plain fragment against a normalized absolute cursor yields a
normalized absolute path. -/
theorem path_for_preserves (cur a : String)
    (hcur : isNormAbsPath cur = true) (ha : plainFragment a = true) :
    isNormAbsPath (path_for cur a) = true := by
  rcases normAbs_facts cur hcur with ⟨rest, hd, ⟨hcolon, hslash⟩, hheadr, hlast⟩
  have hdc : (splitdrive cur.data).1 = [] := by
    simp [splitdrive, normAbs_driveIdx hcur]
  have hda := plain_driveIdx ha
  have hsda1 : (splitdrive a.data).1 = [] := by simp [splitdrive, hda]
  have hsda2 : (splitdrive a.data).2 = a.data := by simp [splitdrive, hda]
  rw [path_for, ntjoin_of_drive_nil cur.data a.data hdc, hsda1, hsda2]
  by_cases hsep : a.data.head?.any isSepC = true
  -- absolute fragment: join keeps the fragment
  · rw [if_pos (Or.inl hsep), joinFinish,
      if_neg (by rw [hsep]; simp), List.nil_append]
    rcases hda2 : a.data with _ | ⟨c1, t1⟩
    · rw [hda2] at hsep; simp at hsep
    · rw [hda2] at hsep
      simp only [List.head?_cons, Option.any_some] at hsep
      have hnc : ':' ∉ (c1 :: t1) := hda2 ▸ plain_no_colon ha
      apply normpath_normAbs
      -- not a special prefix
      · rcases hx : isSpecialPrefix (c1 :: t1) with _ | _
        · rfl
        · exfalso
          rcases isSpecialPrefix_chars hx with ⟨h0, h1⟩
          simp only [List.getElem?_cons_zero, Option.some.injEq] at h0
          rcases t1 with _ | ⟨c2, t2⟩
          · simp at h1
          · simp only [List.getElem?_cons_succ, List.getElem?_cons_zero,
              Option.some.injEq] at h1
            exact plain_not_two_seps ha c1 c2 t2 hda2
              ⟨by simp [isSepC, h0], by simp [isSepC, h1]⟩
      -- head of the normalized join is the separator
      · simp [normSeps, replSep_of_sep hsep]
      -- second character is not a separator
      · rcases t1 with _ | ⟨c2, t2⟩
        · simp [normSeps, replSep]
        · have hc2 : isSepC c2 = false := by
            rcases hy : isSepC c2 with _ | _
            · rfl
            · exact absurd ⟨hsep, hy⟩ (plain_not_two_seps ha c1 c2 t2 hda2)
          simp only [normSeps, List.map_cons, List.getElem?_cons_succ,
            List.getElem?_cons_zero, ne_eq, Option.some.injEq]
          rw [(isSepC_false_facts hc2).2.2]
          exact (isSepC_false_facts hc2).1
      -- second character is not a colon
      · rcases t1 with _ | ⟨c2, t2⟩
        · simp [normSeps, replSep]
        · simp only [normSeps, List.map_cons, List.getElem?_cons_succ,
            List.getElem?_cons_zero, ne_eq, Option.some.injEq]
          intro hx
          exact hnc (replSep_eq_colon hx ▸
            List.mem_cons_of_mem c1 (List.mem_cons_self c2 t2))
      -- no colon anywhere
      · exact normSeps_no_colon hnc
  -- relative fragment: join appends it to the cursor
  · rw [if_neg (by simp [hsep]), joinRel, hd]
    have hnca : ':' ∉ a.data := plain_no_colon ha
    have hheada : ∀ c1 t1, a.data = c1 :: t1 → isSepC c1 = false := by
      intro c1 t1 hx
      rcases hy : isSepC c1 with _ | _
      · rfl
      · exfalso
        apply hsep
        rw [hx]
        simp [hy]
    rcases rest with _ | ⟨r0, t⟩
    -- cursor is the share root
    · rw [if_neg (by decide), joinFinish, if_neg (by simp), List.nil_append,
        List.singleton_append]
      apply normpath_normAbs
      · rcases hx : isSpecialPrefix ('\\' :: a.data) with _ | _
        · rfl
        · exfalso
          rcases isSpecialPrefix_chars hx with ⟨h0, h1⟩
          simp only [List.getElem?_cons_succ] at h1
          rcases hda2 : a.data with _ | ⟨c1, t1⟩
          · rw [hda2] at h1; simp at h1
          · rw [hda2] at h1
            simp only [List.getElem?_cons_zero, Option.some.injEq] at h1
            have := hheada c1 t1 hda2
            rw [h1] at this
            simp [isSepC] at this
      · simp [normSeps, replSep]
      · rcases hda2 : a.data with _ | ⟨c1, t1⟩
        · simp [normSeps, replSep]
        · have hc1 := hheada c1 t1 hda2
          simp only [normSeps, List.map_cons, List.getElem?_cons_succ,
            List.getElem?_cons_zero, ne_eq, Option.some.injEq]
          rw [(isSepC_false_facts hc1).2.2]
          exact (isSepC_false_facts hc1).1
      · rcases hda2 : a.data with _ | ⟨c1, t1⟩
        · simp [normSeps, replSep]
        · simp only [normSeps, List.map_cons, List.getElem?_cons_succ,
            List.getElem?_cons_zero, ne_eq, Option.some.injEq]
          intro hx
          exact hnca (replSep_eq_colon hx ▸ (hda2 ▸ List.mem_cons_self c1 t1))
      · apply normSeps_no_colon
        intro hm
        rcases List.mem_cons.mp hm with hm | hm
        · exact absurd hm.symm (by decide)
        · exact hnca hm
    -- cursor has at least one segment
    · rcases hlast (List.cons_ne_nil r0 t) with ⟨cl, hcl, hclseg⟩
      have hlastcur : ('\\' :: r0 :: t).getLast? = some cl := by
        rw [List.getLast?_cons_cons]
        rcases t with _ | ⟨t0, ts⟩
        · simpa using hcl
        · rw [List.getLast?_cons_cons] at hcl ⊢
          exact hcl
      rw [if_pos ⟨List.cons_ne_nil _ _, by
        rw [hlastcur]
        simp [isSegChar_not_sep hclseg]⟩]
      rw [joinFinish, if_neg (by simp), List.nil_append]
      have hshape : ('\\' :: r0 :: t) ++ ['\\'] ++ a.data =
          '\\' :: ((r0 :: t) ++ '\\' :: a.data) := by simp
      rw [hshape]
      have hr0ne : r0 ≠ '\\' := hheadr r0 t rfl
      have hr0mem : r0 ∈ cur.data := by
        rw [hd]; exact List.mem_cons_of_mem '\\' (List.mem_cons_self r0 t)
      have hr0s : r0 ≠ '/' := fun hx => hslash (hx ▸ hr0mem)
      have hr0c : r0 ≠ ':' := fun hx => hcolon (hx ▸ hr0mem)
      apply normpath_normAbs
      · rcases hx : isSpecialPrefix ('\\' :: ((r0 :: t) ++ '\\' :: a.data)) with _ | _
        · rfl
        · exfalso
          rcases isSpecialPrefix_chars hx with ⟨h0, h1⟩
          simp only [List.getElem?_cons_succ, List.cons_append,
            List.getElem?_cons_zero, Option.some.injEq] at h1
          exact hr0ne h1
      · simp [normSeps, replSep]
      · simp only [normSeps, List.map_cons, List.map_append,
          List.getElem?_cons_succ, List.cons_append, List.getElem?_cons_zero,
          ne_eq, Option.some.injEq]
        rw [show replSep r0 = r0 from by simp [replSep, hr0s]]
        exact hr0ne
      · simp only [normSeps, List.map_cons, List.map_append,
          List.getElem?_cons_succ, List.cons_append, List.getElem?_cons_zero,
          ne_eq, Option.some.injEq]
        rw [show replSep r0 = r0 from by simp [replSep, hr0s]]
        exact hr0c
      · apply normSeps_no_colon
        intro hm
        rcases List.mem_cons.mp hm with hm | hm
        · exact absurd hm.symm (by decide)
        · rcases List.mem_append.mp hm with hm | hm
          · apply hcolon
            rw [hd]
            exact List.mem_cons_of_mem '\\' hm
          · rcases List.mem_cons.mp hm with hm | hm
            · exact absurd hm.symm (by decide)
            · exact hnca hm

theorem stepCursor_preserves (ok : String → Bool) (cur : String) (op : SmbOp)
    (hcur : isNormAbsPath cur = true)
    (harg : ∀ a, op = .cd (some a) → plainFragment a = true) :
    isNormAbsPath (stepCursor ok cur op) = true := by
  rcases op with _ | arg | _
  · exact (by decide : isNormAbsPath "\\" = true)
  · rcases arg with _ | a
    · rw [stepCursor]
      by_cases h : ok "\\"
      · simp [change_dir, h]
        decide
      · simp [change_dir, h]
        exact hcur
    · rw [stepCursor]
      by_cases h : ok (path_for cur a)
      · simp only [change_dir, h, if_pos]
        exact path_for_preserves cur a hcur (harg a rfl)
      · simp only [change_dir, h]
        simp
        exact hcur
  · exact hcur

theorem cdArgs_mem_cons {a : String} {rest : List SmbOp} (op : SmbOp)
    (h : a ∈ cdArgs rest) : a ∈ cdArgs (op :: rest) := by
  rcases op with _ | arg | _
  · exact h
  · rcases arg with _ | b
    · exact h
    · exact List.mem_cons_of_mem b h
  · exact h

theorem runCursor_preserves (ok : String → Bool) (ops : List SmbOp) :
    ∀ cur, isNormAbsPath cur = true →
    (∀ a ∈ cdArgs ops, plainFragment a = true) →
    isNormAbsPath (runCursor ok ops cur) = true := by
  induction ops with
  | nil => intro cur h _; exact h
  | cons op rest ih =>
    intro cur h hargs
    rw [runCursor]
    apply ih
    · apply stepCursor_preserves ok cur op h
      intro a hop
      apply hargs
      rw [hop]
      exact List.mem_cons_self a (cdArgs rest)
    · intro a ha
      exact hargs a (cdArgs_mem_cons op ha)

/-- Counterexample to C7 as stated: with an oracle that accepts every path,
the single operation `cd C:x` is a reachable run after which the cursor
holds the drive-relative string `C:x`, which is not a normalized absolute
backslash path. -/
theorem cursor_invariant_counterexample :
    runCursor (fun _ => true) [SmbOp.cd (some "C:x")] "\\" = "C:x" ∧
    isNormAbsPath "C:x" = false := by decide

/-- C7 (amended): the cursor is initialized to the share root on every
(re)connect, only a successful change-directory mutates it, and along every
run whose `cd` arguments are plain fragments (no colon, not starting with
two separators) the cursor stays a normalized absolute backslash path. -/
theorem cursor_invariant (ok : String → Bool) (ops : List SmbOp)
    (hargs : ∀ a ∈ cdArgs ops, plainFragment a = true) :
    isNormAbsPath (runCursor ok ops "\\") = true ∧
    (∀ cur, stepCursor ok cur .connect = "\\") ∧
    (∀ cur, stepCursor ok cur .other = cur) ∧
    (∀ cur a, ok (path_for cur a) = false →
      stepCursor ok cur (.cd (some a)) = cur) := by
  refine ⟨runCursor_preserves ok ops "\\" (by decide) hargs, fun cur => rfl,
    fun cur => rfl, fun cur a h => ?_⟩
  simp [stepCursor, change_dir, h]

/-- Witness for C7 (amended): a concrete run `cd docs` under an accepting
oracle keeps the cursor normalized and absolute. -/
theorem cursor_invariant_witness :
    isNormAbsPath (runCursor (fun _ => true) [SmbOp.cd (some "docs")] "\\") = true :=
  (cursor_invariant (fun _ => true) [SmbOp.cd (some "docs")]
    (by intro a ha; simp only [cdArgs] at ha
        rcases List.mem_cons.mp ha with h | h
        · rw [h]; decide
        · simp [cdArgs] at h)).1

end Smb
